import Mathlib

/-!
Verification development for the work-acquisition and batch-completion
scheduler in src/src/queue.rs (fishnet queue core).

The Rust code is shallowly embedded: pure data types become Lean
structures, the stateful operations on QueueState become explicit
state-passing functions that also return the list of outgoing server
calls (submit_analysis / abort).  Durations are modelled as natural
numbers of milliseconds, Instants as natural numbers, and the HashMap
of pending batches as an association list.  A Rust panic (remainder by
a zero divisor) is modelled by returning none from the operation.

Elided side channels, which no claim observes: the logger (all
logger.* calls), the StatsRecorder update in the completed branch of
maybe_finished (its counters and the f64-smoothed nps feed only the
logger and backlog pacing; backlog_wait_time below takes the derived
min_user_backlog value as an argument, mirroring the locked read in
QueueActor::backlog_wait_time), and the tokio channel plumbing.
-/

namespace Fishnet

/-- BatchId, modelled as a natural number. -/
abbrev BatchId := Nat

/-- Modelled from the spec (section 3, Work): a tagged identity for a job,
variant Move or Analysis, every work having a stable BatchId. -/
inductive Work where
  | move : BatchId → Work
  | analysis : BatchId → Work
deriving DecidableEq

/-- Stable batch id of a work item (Work::id in the api module). -/
def Work.id : Work → BatchId
  | .move i => i
  | .analysis i => i

/-- Url, modelled as a base plus the mutable path and fragment components
that queue.rs sets via set_path and set_fragment. -/
structure Url where
  base : String
  path : String
  fragment : Option String
deriving DecidableEq

/-- Url::set_path. -/
def Url.setPath (u : Url) (p : String) : Url := { u with path := p }

/-- Url::set_fragment. -/
def Url.setFragment (u : Url) (f : Option String) : Url := { u with fragment := f }

/-- Modelled from the spec (section 6, Endpoint): base URL used purely for
constructing human-readable per-position URLs. -/
structure Endpoint where
  url : Url
deriving DecidableEq

/-- Modelled from the spec (section 3, Position): one unit of work handed to
a worker, carrying its parent Work, a zero-based PositionId, the starting
FEN, the move prefix, a node budget, an optional display URL and variant. -/
structure Position where
  work : Work
  position_id : Nat
  url : Option Url
  variant : Nat
  fen : String
  moves : List String
  nodes : Nat
deriving DecidableEq

/-- Modelled from the spec (section 3, PositionResponse): a worker reply
with principal variation, depth, score, wall time (milliseconds), nodes
searched and nodes-per-second.  The work and position_id fields are the
ones queue.rs reads (res.work.id() and res.position_id.0). -/
structure PositionResponse where
  work : Work
  position_id : Nat
  pv : List String
  depth : Nat
  score : Int
  time_millis : Nat
  nodes : Nat
  nps : Option Nat
deriving DecidableEq

/-- Skip, the sum type with variants Present and Skip. -/
inductive Skip (α : Type) where
  | present : α → Skip α
  | skip : Skip α
deriving DecidableEq

/-- Whether a Skip value is the skip variant. -/
def Skip.isSkipB : Skip α → Bool
  | .skip => true
  | .present _ => false

/-- AnalysisPart wire variants: Skipped with a skipped flag, and Complete
with pv, depth, score, time in milliseconds, nodes and nps. -/
inductive AnalysisPart where
  | skipped : Bool → AnalysisPart
  | complete : List String → Nat → Int → Nat → Nat → Option Nat → AnalysisPart
deriving DecidableEq

/-- Outgoing server calls issued by the queue core (ApiStub methods with
observable arguments). -/
inductive ApiCall where
  | submitAnalysis : BatchId → List (Option AnalysisPart) → ApiCall
  | abort : BatchId → ApiCall
deriving DecidableEq

/-- Modelled from the spec (section 6, Pull): the worker response carried
by a pull, either a PositionResponse or a failure naming a batch id. -/
inductive PullResponse where
  | ok : PositionResponse → PullResponse
  | err : BatchId → PullResponse
deriving DecidableEq

/-- Modelled from the spec (section 5): a one-shot reply channel whose
receiver may already be dropped (closed); the tag identifies the channel
so that returning a pull intact is expressible. -/
structure Callback where
  closed : Bool
  tag : Nat
deriving DecidableEq

/-- Modelled from the spec (section 6, Pull): an optional response plus a
one-shot callback to receive the next Position. -/
structure Pull where
  response : Option PullResponse
  callback : Callback
deriving DecidableEq

/-- Modelled from the spec (section 6, AcquireResponseBody): work, game_id,
position (FEN), variant, moves, optional nodes, skip_positions. -/
structure AcquireResponseBody where
  work : Work
  game_id : Option String
  position : String
  variant : Nat
  moves : List String
  nodes : Option Nat
  skip_positions : List Nat
deriving DecidableEq

/-- IncomingBatch: the batch as received (work, ordered Skip positions,
optional display url). -/
structure IncomingBatch where
  work : Work
  positions : List (Skip Position)
  url : Option Url
deriving DecidableEq

/-- PendingBatch: the batch while accumulating results; positions has the
same length and indexing as the original sequence (none = outstanding,
some skip = pre-skipped, some (present r) = returned). -/
structure PendingBatch where
  work : Work
  positions : List (Option (Skip PositionResponse))
  url : Option Url
  started_at : Nat
deriving DecidableEq

/-- CompletedBatch: every slot resolved, plus a completion timestamp. -/
structure CompletedBatch where
  work : Work
  positions : List (Skip PositionResponse)
  url : Option Url
  started_at : Nat
  completed_at : Nat
deriving DecidableEq

/-- Helper for the collect into Option of a Vec of Options used by
PendingBatch::try_into_completed. -/
def allSome : List (Option α) → Option (List α)
  | [] => some []
  | none :: _ => none
  | some a :: rest => (allSome rest).map (a :: ·)

/-- PendingBatch::try_into_completed: succeeds when every slot is Some,
stamping the completion instant; otherwise returns the batch unchanged. -/
def PendingBatch.try_into_completed (p : PendingBatch) (now : Nat) :
    Except PendingBatch CompletedBatch :=
  match allSome p.positions with
  | some positions =>
      .ok { work := p.work, positions := positions, url := p.url,
            started_at := p.started_at, completed_at := now }
  | none => .error p

/-- Helper for PendingBatch::progress_report: the enumerate loop, carrying
the running index.  A slot yields Complete only when it is present and its
index is positive; everything else, index 0 included, yields None. -/
def progressSlots : Nat → List (Option (Skip PositionResponse)) → List (Option AnalysisPart)
  | _, [] => []
  | i, slot :: rest =>
      (match slot with
       | some (.present pos) =>
           if 0 < i then
             some (.complete pos.pv pos.depth pos.score (pos.time_millis % 2 ^ 64) pos.nodes pos.nps)
           else none
       | _ => none) :: progressSlots (i + 1) rest

/-- PendingBatch::progress_report. -/
def PendingBatch.progress_report (p : PendingBatch) : List (Option AnalysisPart) :=
  progressSlots 0 p.positions

/-- PendingBatch::pending: number of outstanding slots. -/
def PendingBatch.pendingCount (p : PendingBatch) : Nat :=
  (p.positions.filter Option.isNone).length

/-- CompletedBatch::into_analysis: one Some part per position, Skipped for
skip slots and Complete for present slots (time truncated to u64 ms). -/
def CompletedBatch.into_analysis (c : CompletedBatch) : List (Option AnalysisPart) :=
  c.positions.map fun p =>
    some (match p with
      | .skip => AnalysisPart.skipped true
      | .present pos =>
          AnalysisPart.complete pos.pv pos.depth pos.score (pos.time_millis % 2 ^ 64)
            pos.nodes pos.nps)

/-- Pending table of QueueState: the HashMap from BatchId to PendingBatch,
modelled as an association list. -/
abbrev Pending := List (BatchId × PendingBatch)

/-- HashMap::get on the pending table. -/
def lookupBatch : Pending → BatchId → Option PendingBatch
  | [], _ => none
  | (k, v) :: rest, i => if k = i then some v else lookupBatch rest i

/-- HashMap::insert on the pending table (replace or append). -/
def insertBatch : Pending → BatchId → PendingBatch → Pending
  | [], k, v => [(k, v)]
  | (k0, v0) :: rest, k, v =>
      if k0 = k then (k, v) :: rest else (k0, v0) :: insertBatch rest k v

/-- HashMap::remove on the pending table. -/
def removeBatch : Pending → BatchId → Pending
  | [], _ => []
  | (k0, v0) :: rest, k => if k0 = k then rest else (k0, v0) :: removeBatch rest k

/-- HashMap::get_mut followed by an in-place update of the found batch. -/
def updateBatch : Pending → BatchId → (PendingBatch → PendingBatch) → Pending
  | [], _, _ => []
  | (k0, v0) :: rest, k, f =>
      if k0 = k then (k0, f v0) :: rest else (k0, v0) :: updateBatch rest k f

/-- QueueState: shutdown flag, core count, incoming queue of positions
(front of the VecDeque at the head) and the pending table. -/
structure QueueState where
  shutdownSoon : Bool
  cores : Nat
  incoming : List Position
  pending : Pending
deriving DecidableEq

/-- QueueState::new. -/
def QueueState.new (cores : Nat) : QueueState :=
  { shutdownSoon := false, cores := cores, incoming := [], pending := [] }

/-- QueueState::maybe_finished: temporarily remove the batch; if complete,
submit the analysis (stats recording and logging elided, they produce no
server call); otherwise compute a progress report, submit it when the
count of Some entries is divisible by 2 times cores, and re-insert the
batch.  Remainder by zero, the Rust panic when cores is 0, is modelled by
returning none. -/
def QueueState.maybe_finished (s : QueueState) (batch : BatchId) (now : Nat) :
    Option (QueueState × List ApiCall) :=
  match lookupBatch s.pending batch with
  | none => some (s, [])
  | some p =>
      let s1 : QueueState := { s with pending := removeBatch s.pending batch }
      match p.try_into_completed now with
      | .ok completed =>
          some (s1, [ApiCall.submitAnalysis completed.work.id completed.into_analysis])
      | .error pend =>
          if s1.cores * 2 = 0 then none
          else
            let report := pend.progress_report
            some ({ s1 with pending := insertBatch s1.pending pend.work.id pend },
              if (report.filter Option.isSome).length % (s1.cores * 2) = 0 then
                [ApiCall.submitAnalysis pend.work.id report]
              else [])

/-- One iteration of the reversed loop in QueueState::add_incoming_batch:
push present positions to the back of incoming, and insert the matching
slot (None for present, Some Skip for skip) at index 0 of the vector. -/
def addStep (acc : List Position × List (Option (Skip PositionResponse))) (sp : Skip Position) :
    List Position × List (Option (Skip PositionResponse)) :=
  match sp with
  | .present q => (acc.1 ++ [q], none :: acc.2)
  | .skip => (acc.1, some Skip.skip :: acc.2)

/-- QueueState::add_incoming_batch: drop a duplicate batch id (error logged,
no server call), otherwise enqueue the present positions, insert the
pending vector and run maybe_finished on the new batch. -/
def QueueState.add_incoming_batch (s : QueueState) (batch : IncomingBatch) (now : Nat) :
    Option (QueueState × List ApiCall) :=
  let batch_id := batch.work.id
  if (lookupBatch s.pending batch_id).isSome then
    some (s, [])
  else
    let acc := batch.positions.reverse.foldl addStep (s.incoming, [])
    let s1 : QueueState := { s with
      incoming := acc.1,
      pending := insertBatch s.pending batch_id
        { work := batch.work, positions := acc.2, url := batch.url, started_at := now } }
    s1.maybe_finished batch_id now

/-- Outcome of QueueState::respond, with the Result of the Rust function in
ret and the position successfully delivered on the callback, if any, in
sent. -/
inductive RespondRet where
  | ok : RespondRet
  | err : Pull → RespondRet
deriving DecidableEq

/-- Result record of QueueState::respond. -/
structure RespondResult where
  state : QueueState
  calls : List ApiCall
  sent : Option Position
  ret : RespondRet
deriving DecidableEq

/-- Response-handling phase of QueueState::respond: an Ok response writes
Some (Present res) into the slot at res.position_id of the pending batch
unconditionally (when batch and index exist) and runs maybe_finished; an
Err response drops the batch, purges incoming of its positions and aborts
it on the server; no response is a no-op. -/
def ingestResponse (s : QueueState) (resp : Option PullResponse) (now : Nat) :
    Option (QueueState × List ApiCall) :=
  match resp with
  | some (.ok res) =>
      let s1 : QueueState := { s with
        pending := updateBatch s.pending res.work.id fun pb =>
          { pb with positions := pb.positions.set res.position_id (some (.present res)) } }
      s1.maybe_finished res.work.id now
  | some (.err batch_id) =>
      some ({ s with
                pending := removeBatch s.pending batch_id,
                incoming := s.incoming.filter fun q => q.work.id != batch_id },
            [ApiCall.abort batch_id])
  | none => some (s, [])

/-- QueueState::respond: ingest the response, then try to satisfy the pull:
pop the head of incoming and send it; a failed send (closed receiver)
pushes the position back to the front, leaving incoming as before; an
empty incoming returns Err with the taken pull. -/
def QueueState.respond (s : QueueState) (pull : Pull) (now : Nat) : Option RespondResult :=
  match ingestResponse s pull.response now with
  | none => none
  | some (s2, calls) =>
      match s2.incoming with
      | [] => some ⟨s2, calls, none, .err { response := none, callback := pull.callback }⟩
      | q :: rest =>
          if pull.callback.closed then
            -- pop_front then push_front of the send error: incoming unchanged
            some ⟨s2, calls, none, .ok⟩
          else
            some ⟨{ s2 with incoming := rest }, calls, some q, .ok⟩

/-- QueueStub::shutdown_soon, state-level effect (mailbox close and notify
elided). -/
def QueueState.shutdown_soon_op (s : QueueState) : QueueState :=
  { s with shutdownSoon := true }

/-- QueueStub::shutdown, state-level effect: shutdown_soon, then drain the
pending table, aborting every drained batch id; incoming is not touched. -/
def QueueState.shutdown (s : QueueState) : QueueState × List ApiCall :=
  ({ s with shutdownSoon := true, pending := [] },
   s.pending.map fun kp => ApiCall.abort kp.1)

/-- Server status as read by QueueActor::backlog_wait_time: age in
milliseconds of the oldest queued item on the user and system sides. -/
structure QueueStatus where
  userOldest : Nat
  systemOldest : Nat
deriving DecidableEq

/-- AcquireQuery: the slow flag sent with an acquire request. -/
structure AcquireQuery where
  slow : Bool
deriving DecidableEq

/-- QueueActor::backlog_wait_time as a pure function.  Durations are
milliseconds; optUser and optSystem are the configured BacklogOpt fields,
mub is the min_user_backlog read from the stats under the lock, and
status is what api.status() would return (it is only consulted when one
of the backlogs reaches one second, as in the code). -/
def backlog_wait_time (optUser optSystem : Option Nat) (mub : Nat)
    (status : Option QueueStatus) : Nat × AcquireQuery :=
  let sec : Nat := 1000
  let user_backlog := max (optUser.getD 0) mub
  let system_backlog := optSystem.getD 0
  if sec ≤ user_backlog ∨ sec ≤ system_backlog then
    match status with
    | some st =>
        let user_wait := user_backlog - st.userOldest
        let system_wait := system_backlog - st.systemOldest
        let slow := decide (system_wait + sec ≤ user_wait)
        (min user_wait system_wait, { slow := slow })
    | none => (0, { slow := decide (sec ≤ mub) })
  else (0, { slow := decide (sec ≤ mub) })

/-- Helper for IncomingBatch::from_acquired, Analysis branch: the loop over
enumerated moves, carrying the running move prefix and the next position
id; each step appends the move and emits a Present position whose url
fragment is the decimal position id. -/
def analysisTail (endpointUrl : Url) (gameId : Option String) (work : Work) (variant : Nat)
    (fen : String) (nodes : Nat) (movesAcc : List String) (idx : Nat) :
    List String → List Position
  | [] => []
  | m :: rest =>
      let movesNew := movesAcc ++ [m]
      { work := work, position_id := idx,
        url := gameId.map fun g => (endpointUrl.setPath g).setFragment (some (toString idx)),
        variant := variant, fen := fen, moves := movesNew, nodes := nodes } ::
      analysisTail endpointUrl gameId work variant fen nodes movesNew (idx + 1) rest

/-- Helper for IncomingBatch::from_acquired, Analysis branch, before the
skip loop: position 0 with an empty move list and url fragment 0,
followed by one position per move (the enumerate loop). -/
def analysisPositions (endpoint : Endpoint) (body : AcquireResponseBody) : List Position :=
  let url := body.game_id.map fun g => endpoint.url.setPath g
  let nodes := body.nodes.getD 4000000
  { work := body.work, position_id := 0,
    url := url.map fun u => u.setFragment (some "0"),
    variant := body.variant, fen := body.position, moves := [], nodes := nodes } ::
  analysisTail endpoint.url body.game_id body.work body.variant body.position nodes [] 1
    body.moves

/-- IncomingBatch::from_acquired.  Move work yields a single Present
position with id 0; Analysis work yields the analysisPositions base,
then overwrites each in-range index of skip_positions with Skip
(Vec::get_mut ignores out-of-range indices, as does List.set).  The skip
loop is inside the Analysis branch only. -/
def IncomingBatch.from_acquired (endpoint : Endpoint) (body : AcquireResponseBody) :
    IncomingBatch :=
  let url := body.game_id.map fun g => endpoint.url.setPath g
  let nodes := body.nodes.getD 4000000
  { work := body.work
    url := url
    positions :=
      match body.work with
      | .move _ =>
          [Skip.present { work := body.work, position_id := 0, url := url,
                          variant := body.variant, fen := body.position,
                          moves := body.moves, nodes := nodes }]
      | .analysis _ =>
          body.skip_positions.foldl (fun ps i => ps.set i Skip.skip)
            ((analysisPositions endpoint body).map Skip.present) }

/-! Helper lemmas about the association-list pending table. -/

theorem lookupBatch_insertBatch (p : Pending) (k : BatchId) (v : PendingBatch) (i : BatchId) :
    lookupBatch (insertBatch p k v) i = if k = i then some v else lookupBatch p i := by
  induction p with
  | nil => simp [insertBatch, lookupBatch]
  | cons kv rest ih =>
      obtain ⟨k0, v0⟩ := kv
      by_cases h0 : k0 = k
      · subst h0
        by_cases h : k0 = i <;> simp [insertBatch, lookupBatch, h]
      · by_cases h : k0 = i
        · subst h
          have hk : ¬k = k0 := fun hh => h0 hh.symm
          simp [insertBatch, lookupBatch, h0, hk]
        · rw [show insertBatch ((k0, v0) :: rest) k v = (k0, v0) :: insertBatch rest k v by
            simp [insertBatch, h0]]
          simp only [lookupBatch, if_neg h, ih]

theorem lookupBatch_removeBatch_ne (p : Pending) (k i : BatchId) (h : i ≠ k) :
    lookupBatch (removeBatch p k) i = lookupBatch p i := by
  induction p with
  | nil => simp [removeBatch]
  | cons kv rest ih =>
      obtain ⟨k0, v0⟩ := kv
      by_cases h0 : k0 = k
      · subst h0
        have hk : ¬k0 = i := fun hh => h hh.symm
        simp [removeBatch, lookupBatch, hk]
      · rw [show removeBatch ((k0, v0) :: rest) k = (k0, v0) :: removeBatch rest k by
          simp [removeBatch, h0]]
        by_cases hik : k0 = i <;> simp only [lookupBatch, if_pos, if_neg, hik, ih]

theorem lookupBatch_updateBatch (p : Pending) (k : BatchId) (f : PendingBatch → PendingBatch)
    (i : BatchId) :
    lookupBatch (updateBatch p k f) i =
      if k = i then (lookupBatch p k).map f else lookupBatch p i := by
  induction p with
  | nil => simp [updateBatch, lookupBatch]
  | cons kv rest ih =>
      obtain ⟨k0, v0⟩ := kv
      by_cases h0 : k0 = k
      · subst h0
        by_cases h : k0 = i <;> simp [updateBatch, lookupBatch, h]
      · by_cases h : k0 = i
        · subst h
          have hk : ¬k = k0 := fun hh => h0 hh.symm
          simp [updateBatch, lookupBatch, h0, hk]
        · rw [show updateBatch ((k0, v0) :: rest) k f = (k0, v0) :: updateBatch rest k f by
            simp [updateBatch, h0]]
          simp only [lookupBatch, if_neg h, if_neg h0, ih]

theorem updateBatch_eq_of_lookup_none (p : Pending) (k : BatchId) (f : PendingBatch → PendingBatch)
    (h : lookupBatch p k = none) : updateBatch p k f = p := by
  induction p with
  | nil => simp [updateBatch]
  | cons kv rest ih =>
      obtain ⟨k0, v0⟩ := kv
      by_cases h0 : k0 = k
      · subst h0
        simp [lookupBatch] at h
      · simp [lookupBatch, h0] at h
        simp [updateBatch, h0, ih h]

theorem mem_insertBatch {p : Pending} {k : BatchId} {v : PendingBatch} {kp : BatchId × PendingBatch}
    (h : kp ∈ insertBatch p k v) : kp = (k, v) ∨ kp ∈ p := by
  induction p with
  | nil =>
      simp [insertBatch] at h
      exact Or.inl h
  | cons kv rest ih =>
      obtain ⟨k0, v0⟩ := kv
      by_cases h0 : k0 = k
      · subst h0
        rw [show insertBatch ((k0, v0) :: rest) k0 v = (k0, v) :: rest by
          simp [insertBatch]] at h
        rcases List.mem_cons.mp h with h1 | h1
        · exact Or.inl h1
        · exact Or.inr (List.mem_cons_of_mem _ h1)
      · rw [show insertBatch ((k0, v0) :: rest) k v = (k0, v0) :: insertBatch rest k v by
          simp [insertBatch, h0]] at h
        rcases List.mem_cons.mp h with h1 | h1
        · exact Or.inr (List.mem_cons.mpr (Or.inl h1))
        · rcases ih h1 with h2 | h2
          · exact Or.inl h2
          · exact Or.inr (List.mem_cons_of_mem _ h2)

theorem mem_removeBatch {p : Pending} {k : BatchId} {kp : BatchId × PendingBatch}
    (h : kp ∈ removeBatch p k) : kp ∈ p := by
  induction p with
  | nil => simp [removeBatch] at h
  | cons kv rest ih =>
      obtain ⟨k0, v0⟩ := kv
      by_cases h0 : k0 = k
      · subst h0
        rw [show removeBatch ((k0, v0) :: rest) k0 = rest by simp [removeBatch]] at h
        exact List.mem_cons_of_mem _ h
      · rw [show removeBatch ((k0, v0) :: rest) k = (k0, v0) :: removeBatch rest k by
          simp [removeBatch, h0]] at h
        rcases List.mem_cons.mp h with h1 | h1
        · exact List.mem_cons.mpr (Or.inl h1)
        · exact List.mem_cons_of_mem _ (ih h1)

theorem mem_updateBatch {p : Pending} {k : BatchId} {f : PendingBatch → PendingBatch}
    {kp : BatchId × PendingBatch} (h : kp ∈ updateBatch p k f) :
    kp ∈ p ∨ ∃ v, (kp.1, v) ∈ p ∧ kp.2 = f v := by
  induction p with
  | nil => simp [updateBatch] at h
  | cons kv rest ih =>
      obtain ⟨k0, v0⟩ := kv
      by_cases h0 : k0 = k
      · subst h0
        rw [show updateBatch ((k0, v0) :: rest) k0 f = (k0, f v0) :: rest by
          simp [updateBatch]] at h
        rcases List.mem_cons.mp h with h1 | h1
        · exact Or.inr ⟨v0, by simp [h1], by simp [h1]⟩
        · exact Or.inl (List.mem_cons_of_mem _ h1)
      · rw [show updateBatch ((k0, v0) :: rest) k f = (k0, v0) :: updateBatch rest k f by
          simp [updateBatch, h0]] at h
        rcases List.mem_cons.mp h with h1 | h1
        · exact Or.inl (List.mem_cons.mpr (Or.inl h1))
        · rcases ih h1 with h2 | h2
          · exact Or.inl (List.mem_cons_of_mem _ h2)
          · exact Or.inr ⟨h2.choose, ⟨List.mem_cons_of_mem _ h2.choose_spec.1, h2.choose_spec.2⟩⟩

theorem lookupBatch_mem {p : Pending} {k : BatchId} {v : PendingBatch}
    (h : lookupBatch p k = some v) : (k, v) ∈ p := by
  induction p with
  | nil => simp [lookupBatch] at h
  | cons kv rest ih =>
      obtain ⟨k0, v0⟩ := kv
      by_cases h0 : k0 = k
      · subst h0
        simp [lookupBatch] at h
        simp [h]
      · simp only [lookupBatch, if_neg h0] at h
        exact List.mem_cons_of_mem _ (ih h)

/-! Helper lemmas about allSome, the collect into an optional vector. -/

theorem allSome_eq_some {l : List (Option α)} {r : List α} (h : allSome l = some r) :
    l = r.map some := by
  induction l generalizing r with
  | nil =>
      simp only [allSome, Option.some.injEq] at h
      simp [← h]
  | cons x rest ih =>
      cases x with
      | none => simp [allSome] at h
      | some a =>
          simp only [allSome, Option.map_eq_some'] at h
          obtain ⟨rr, hrr, hcons⟩ := h
          subst hcons
          simp [ih hrr]

theorem allSome_map_some (r : List α) : allSome (r.map some) = some r := by
  induction r with
  | nil => simp [allSome]
  | cons a rest ih => simp [allSome, ih]

theorem allSome_eq_none_of_get? {l : List (Option α)} {i : Nat} (h : l.get? i = some none) :
    allSome l = none := by
  induction l generalizing i with
  | nil => simp at h
  | cons x rest ih =>
      cases i with
      | zero =>
          simp only [List.get?] at h
          cases x with
          | none => simp [allSome]
          | some a => simp at h
      | succ j =>
          simp only [List.get?] at h
          cases x with
          | none => simp [allSome]
          | some a => simp [allSome, ih h]

theorem try_into_completed_ok {p : PendingBatch} {now : Nat} {c : CompletedBatch}
    (h : p.try_into_completed now = .ok c) :
    allSome p.positions = some c.positions ∧
      c = { work := p.work, positions := c.positions, url := p.url,
            started_at := p.started_at, completed_at := now } := by
  unfold PendingBatch.try_into_completed at h
  cases hs : allSome p.positions with
  | none => rw [hs] at h; cases h
  | some ps =>
      rw [hs] at h
      cases h
      exact ⟨rfl, rfl⟩

theorem try_into_completed_error {p q : PendingBatch} {now : Nat}
    (h : p.try_into_completed now = .error q) :
    q = p ∧ allSome p.positions = none := by
  unfold PendingBatch.try_into_completed at h
  cases hs : allSome p.positions with
  | none => rw [hs] at h; cases h; exact ⟨rfl, rfl⟩
  | some ps => rw [hs] at h; cases h

/-! Closed form of the reversed insertion loop of add_incoming_batch. -/

/-- Slot initialisation of add_incoming_batch: a present position leaves an
outstanding None slot, a skip is pre-filled. -/
def slotOf : Skip Position → Option (Skip PositionResponse)
  | .present _ => none
  | .skip => some Skip.skip

/-- Present positions of a batch, in original order. -/
def presentPositions : List (Skip Position) → List Position
  | [] => []
  | .present q :: rest => q :: presentPositions rest
  | .skip :: rest => presentPositions rest

theorem addStep_fold (l : List (Skip Position)) (inc : List Position)
    (ps : List (Option (Skip PositionResponse))) :
    l.reverse.foldl addStep (inc, ps) =
      (inc ++ (presentPositions l).reverse, l.map slotOf ++ ps) := by
  induction l with
  | nil => simp [presentPositions]
  | cons x xs ih =>
      cases x with
      | present q =>
          simp only [List.reverse_cons, List.foldl_append, ih, List.foldl_cons, List.foldl_nil,
            addStep, presentPositions, List.map_cons, List.reverse_cons, slotOf]
          simp [List.append_assoc]
      | skip =>
          simp only [List.reverse_cons, List.foldl_append, ih, List.foldl_cons, List.foldl_nil,
            addStep, presentPositions, List.map_cons, slotOf]
          simp

theorem mem_presentPositions {l : List (Skip Position)} {q : Position} :
    q ∈ presentPositions l ↔ Skip.present q ∈ l := by
  induction l with
  | nil => simp [presentPositions]
  | cons x xs ih =>
      cases x with
      | present a => simp [presentPositions, ih]
      | skip =>
          simp only [presentPositions, ih, List.mem_cons]
          constructor
          · exact Or.inr
          · rintro (h | h)
            · cases h
            · exact h

/-! The queue invariant: every position sitting in incoming belongs to a
batch that is still pending, and its own slot in that batch is still
outstanding; pending entries are keyed by the id of their work. -/

/-- Condition on one incoming position: its batch is pending and its slot
is still None. -/
def batchOkB (pending : Pending) (q : Position) : Bool :=
  match lookupBatch pending q.work.id with
  | some pb => decide (pb.positions.get? q.position_id = some none)
  | none => false

/-- Strengthened queue invariant: pending entries are keyed by their work
id, and every incoming position points at a pending batch whose slot for
it is still outstanding. -/
def QueueInv (s : QueueState) : Prop :=
  (∀ kp ∈ s.pending, (kp : BatchId × PendingBatch).2.work.id = kp.1) ∧
  (∀ q ∈ s.incoming, batchOkB s.pending q = true)

/-- The invariant exactly as claimed: every incoming position has a batch
id that is currently a key of pending. -/
def IncomingCovered (s : QueueState) : Prop :=
  ∀ q ∈ s.incoming, (lookupBatch s.pending q.work.id).isSome = true

theorem batchOkB_iff {pending : Pending} {q : Position} :
    batchOkB pending q = true ↔
      ∃ pb, lookupBatch pending q.work.id = some pb ∧
        pb.positions.get? q.position_id = some none := by
  unfold batchOkB
  cases h : lookupBatch pending q.work.id with
  | none => simp
  | some pb => simp [h]

instance decIncomingCovered (s : QueueState) : Decidable (IncomingCovered s) :=
  inferInstanceAs
    (Decidable (∀ q ∈ s.incoming, (lookupBatch s.pending q.work.id).isSome = true))

instance decQueueInv (s : QueueState) : Decidable (QueueInv s) :=
  inferInstanceAs
    (Decidable ((∀ kp ∈ s.pending, (kp : BatchId × PendingBatch).2.work.id = kp.1) ∧
      (∀ q ∈ s.incoming, batchOkB s.pending q = true)))

theorem queueInv_incomingCovered {s : QueueState} (h : QueueInv s) : IncomingCovered s := by
  intro q hq
  have hb := h.2 q hq
  rw [batchOkB_iff] at hb
  obtain ⟨pb, hpb, _⟩ := hb
  simp [hpb]

/-! No-panic lemmas: with at least one core the cadence divisor is nonzero
and every operation returns some. -/

theorem maybe_finished_isSome {s : QueueState} (b : BatchId) (now : Nat) (hc : s.cores ≠ 0) :
    (s.maybe_finished b now).isSome = true := by
  unfold QueueState.maybe_finished
  cases hl : lookupBatch s.pending b with
  | none => simp
  | some p =>
      cases hcmp : p.try_into_completed now with
      | ok c => simp [hcmp]
      | error pend =>
          have hnz : s.cores * 2 ≠ 0 := by
            intro hz
            rcases Nat.mul_eq_zero.mp hz with h | h
            · exact hc h
            · cases h
          simp [hcmp, hnz]

theorem ingestResponse_isSome {s : QueueState} (resp : Option PullResponse) (now : Nat)
    (hc : s.cores ≠ 0) : (ingestResponse s resp now).isSome = true := by
  unfold ingestResponse
  cases resp with
  | none => simp
  | some r =>
      cases r with
      | ok res => exact maybe_finished_isSome _ _ hc
      | err bid => simp

theorem respond_isSome {s : QueueState} (pull : Pull) (now : Nat) (hc : s.cores ≠ 0) :
    (s.respond pull now).isSome = true := by
  unfold QueueState.respond
  cases hi : ingestResponse s pull.response now with
  | none =>
      have := ingestResponse_isSome (s := s) pull.response now hc
      rw [hi] at this
      cases this
  | some sc =>
      obtain ⟨s2, calls⟩ := sc
      cases hinc : s2.incoming with
      | nil => simp [hinc]
      | cons q rest => by_cases hcl : pull.callback.closed <;> simp [hinc, hcl]

theorem add_incoming_batch_isSome {s : QueueState} (batch : IncomingBatch) (now : Nat)
    (hc : s.cores ≠ 0) : (s.add_incoming_batch batch now).isSome = true := by
  unfold QueueState.add_incoming_batch
  by_cases hdup : (lookupBatch s.pending batch.work.id).isSome
  · simp [hdup]
  · simp only [hdup, Bool.false_eq_true, if_false, if_neg]
    exact maybe_finished_isSome _ _ hc

/-! Branch equations for the operations. -/

theorem maybe_finished_not_pending {s : QueueState} {b : BatchId} (now : Nat)
    (hl : lookupBatch s.pending b = none) : s.maybe_finished b now = some (s, []) := by
  simp [QueueState.maybe_finished, hl]

theorem maybe_finished_completed {s : QueueState} {b : BatchId} {now : Nat}
    {p : PendingBatch} {c : CompletedBatch}
    (hl : lookupBatch s.pending b = some p) (hcmp : p.try_into_completed now = .ok c) :
    s.maybe_finished b now =
      some ({ s with pending := removeBatch s.pending b },
            [ApiCall.submitAnalysis c.work.id c.into_analysis]) := by
  simp [QueueState.maybe_finished, hl, hcmp]

theorem maybe_finished_incomplete {s : QueueState} {b : BatchId} {now : Nat}
    {p : PendingBatch}
    (hl : lookupBatch s.pending b = some p) (hcmp : p.try_into_completed now = .error p)
    (hz : s.cores * 2 ≠ 0) :
    s.maybe_finished b now =
      some ({ s with pending := insertBatch (removeBatch s.pending b) p.work.id p },
        if (p.progress_report.filter Option.isSome).length % (s.cores * 2) = 0 then
          [ApiCall.submitAnalysis p.work.id p.progress_report]
        else []) := by
  simp [QueueState.maybe_finished, hl, hcmp, hz]

theorem maybe_finished_panic {s : QueueState} {b : BatchId} {now : Nat}
    {p : PendingBatch}
    (hl : lookupBatch s.pending b = some p) (hcmp : p.try_into_completed now = .error p)
    (hz : s.cores * 2 = 0) : s.maybe_finished b now = none := by
  simp [QueueState.maybe_finished, hl, hcmp, hz]

theorem ingest_none (s : QueueState) (now : Nat) :
    ingestResponse s none now = some (s, []) := rfl

theorem ingest_err (s : QueueState) (bid : BatchId) (now : Nat) :
    ingestResponse s (some (.err bid)) now =
      some ({ s with
                pending := removeBatch s.pending bid,
                incoming := s.incoming.filter fun q => q.work.id != bid },
            [ApiCall.abort bid]) := rfl

theorem ingest_ok (s : QueueState) (res : PositionResponse) (now : Nat) :
    ingestResponse s (some (.ok res)) now =
      QueueState.maybe_finished
        { s with
            pending := updateBatch s.pending res.work.id fun pb =>
              { pb with
                  positions := pb.positions.set res.position_id (some (.present res)) } }
        res.work.id now := rfl

theorem respond_need_more {s : QueueState} {pull : Pull} {now : Nat}
    {s2 : QueueState} {calls : List ApiCall}
    (hi : ingestResponse s pull.response now = some (s2, calls))
    (hinc : s2.incoming = []) :
    s.respond pull now =
      some ⟨s2, calls, none, .err { response := none, callback := pull.callback }⟩ := by
  simp [QueueState.respond, hi, hinc]

theorem respond_closed {s : QueueState} {pull : Pull} {now : Nat}
    {s2 : QueueState} {calls : List ApiCall} {q : Position} {rest : List Position}
    (hi : ingestResponse s pull.response now = some (s2, calls))
    (hinc : s2.incoming = q :: rest) (hcl : pull.callback.closed = true) :
    s.respond pull now = some ⟨s2, calls, none, .ok⟩ := by
  simp [QueueState.respond, hi, hinc, hcl]

theorem respond_serve {s : QueueState} {pull : Pull} {now : Nat}
    {s2 : QueueState} {calls : List ApiCall} {q : Position} {rest : List Position}
    (hi : ingestResponse s pull.response now = some (s2, calls))
    (hinc : s2.incoming = q :: rest) (hcl : pull.callback.closed = false) :
    s.respond pull now = some ⟨{ s2 with incoming := rest }, calls, some q, .ok⟩ := by
  simp [QueueState.respond, hi, hinc, hcl]

theorem add_incoming_batch_dup {s : QueueState} {batch : IncomingBatch} (now : Nat)
    {pb : PendingBatch} (hdup : lookupBatch s.pending batch.work.id = some pb) :
    s.add_incoming_batch batch now = some (s, []) := by
  simp [QueueState.add_incoming_batch, hdup]

theorem add_incoming_batch_fresh {s : QueueState} {batch : IncomingBatch} (now : Nat)
    (hdup : lookupBatch s.pending batch.work.id = none) :
    s.add_incoming_batch batch now =
      QueueState.maybe_finished
        { s with
            incoming := s.incoming ++ (presentPositions batch.positions).reverse,
            pending := insertBatch s.pending batch.work.id
              { work := batch.work, positions := batch.positions.map slotOf,
                url := batch.url, started_at := now } }
        batch.work.id now := by
  simp only [QueueState.add_incoming_batch, hdup, Option.isSome_none, Bool.false_eq_true,
    if_false]
  rw [addStep_fold]
  simp

/-! Preservation of the queue invariant by the state operations. -/

theorem maybe_finished_inv {s : QueueState} {b : BatchId} {now : Nat}
    {r1 : QueueState} {r2 : List ApiCall} (hinv : QueueInv s)
    (h : s.maybe_finished b now = some (r1, r2)) : QueueInv r1 := by
  obtain ⟨hwk, hin⟩ := hinv
  cases hl : lookupBatch s.pending b with
  | none =>
      rw [maybe_finished_not_pending now hl] at h
      injection h with h
      injection h with h1 h2
      exact h1 ▸ ⟨hwk, hin⟩
  | some p =>
      cases hcmp : p.try_into_completed now with
      | ok c =>
          rw [maybe_finished_completed hl hcmp] at h
          injection h with h
          injection h with h1 _
          subst h1
          obtain ⟨hall, _⟩ := try_into_completed_ok hcmp
          constructor
          · intro kp hkp
            exact hwk kp (mem_removeBatch hkp)
          · intro q hq
            have hb := hin q hq
            rw [batchOkB_iff] at hb
            obtain ⟨pb, hpb, hslot⟩ := hb
            by_cases hqb : q.work.id = b
            · rw [hqb, hl] at hpb
              injection hpb with hpb
              subst hpb
              rw [allSome_eq_some hall, List.get?_map] at hslot
              cases hg : c.positions.get? q.position_id <;> rw [hg] at hslot <;> simp at hslot
            · rw [batchOkB_iff]
              refine ⟨pb, ?_, hslot⟩
              show lookupBatch (removeBatch s.pending b) q.work.id = some pb
              rw [lookupBatch_removeBatch_ne _ _ _ hqb]
              exact hpb
      | error pend =>
          obtain ⟨hpeq, _⟩ := try_into_completed_error hcmp
          subst hpeq
          by_cases hz : s.cores * 2 = 0
          · rw [maybe_finished_panic hl hcmp hz] at h
            cases h
          · rw [maybe_finished_incomplete hl hcmp hz] at h
            injection h with h
            injection h with h1 _
            subst h1
            have hpwk : pend.work.id = b := hwk (b, pend) (lookupBatch_mem hl)
            constructor
            · intro kp hkp
              rcases mem_insertBatch hkp with hkp1 | hkp1
              · rw [hkp1]
              · exact hwk kp (mem_removeBatch hkp1)
            · intro q hq
              have hb := hin q hq
              rw [batchOkB_iff] at hb
              obtain ⟨pb, hpb, hslot⟩ := hb
              rw [batchOkB_iff]
              show ∃ pb1, lookupBatch (insertBatch (removeBatch s.pending b) pend.work.id pend)
                  q.work.id = some pb1 ∧ pb1.positions.get? q.position_id = some none
              by_cases hqb : q.work.id = b
              · rw [hqb, hl] at hpb
                injection hpb with hpb
                subst hpb
                refine ⟨_, ?_, hslot⟩
                rw [lookupBatch_insertBatch, if_pos (by rw [hpwk, hqb])]
              · refine ⟨pb, ?_, hslot⟩
                rw [lookupBatch_insertBatch,
                  if_neg (by rw [hpwk]; exact fun hh => hqb hh.symm),
                  lookupBatch_removeBatch_ne _ _ _ hqb]
                exact hpb

theorem ingestResponse_inv {s : QueueState} {resp : Option PullResponse} {now : Nat}
    {s2 : QueueState} {calls : List ApiCall} (hinv : QueueInv s)
    (hfresh : ∀ res, resp = some (.ok res) →
      ∀ q ∈ s.incoming, ¬(q.work.id = res.work.id ∧ q.position_id = res.position_id))
    (h : ingestResponse s resp now = some (s2, calls)) : QueueInv s2 := by
  obtain ⟨hwk, hin⟩ := hinv
  cases resp with
  | none =>
      rw [ingest_none] at h
      injection h with h
      injection h with h1 _
      exact h1 ▸ ⟨hwk, hin⟩
  | some r =>
      cases r with
      | err bid =>
          rw [ingest_err] at h
          injection h with h
          injection h with h1 _
          subst h1
          constructor
          · intro kp hkp
            exact hwk kp (mem_removeBatch hkp)
          · intro q hq
            rw [List.mem_filter] at hq
            obtain ⟨hq1, hq2⟩ := hq
            have hqb : q.work.id ≠ bid := by
              intro hh
              rw [hh] at hq2
              simp at hq2
            have hb := hin q hq1
            rw [batchOkB_iff] at hb
            obtain ⟨pb, hpb, hslot⟩ := hb
            rw [batchOkB_iff]
            refine ⟨pb, ?_, hslot⟩
            show lookupBatch (removeBatch s.pending bid) q.work.id = some pb
            rw [lookupBatch_removeBatch_ne _ _ _ hqb]
            exact hpb
      | ok res =>
          rw [ingest_ok] at h
          refine maybe_finished_inv ⟨?_, ?_⟩ h
          · intro kp hkp
            rcases mem_updateBatch hkp with hkp1 | hkp1
            · exact hwk kp hkp1
            · obtain ⟨v, hv, hv2⟩ := hkp1
              have := hwk (kp.1, v) hv
              simp only at this
              rw [hv2]
              exact this
          · intro q hq
            have hb := hin q hq
            rw [batchOkB_iff] at hb
            obtain ⟨pb, hpb, hslot⟩ := hb
            rw [batchOkB_iff]
            show ∃ pb1, lookupBatch (updateBatch s.pending res.work.id _) q.work.id
                = some pb1 ∧ pb1.positions.get? q.position_id = some none
            rw [lookupBatch_updateBatch]
            by_cases hqb : res.work.id = q.work.id
            · rw [if_pos hqb, hqb, hpb]
              refine ⟨_, rfl, ?_⟩
              have hne : q.position_id ≠ res.position_id := fun hh =>
                hfresh res rfl q hq ⟨hqb.symm, hh⟩
              show (pb.positions.set res.position_id (some (.present res))).get?
                  q.position_id = some none
              rw [List.get?_set_ne _ _ (Ne.symm hne)]
              exact hslot
            · rw [if_neg hqb]
              exact ⟨pb, hpb, hslot⟩

theorem respond_inv {s : QueueState} {pull : Pull} {now : Nat} {r : RespondResult}
    (hinv : QueueInv s)
    (hfresh : ∀ res, pull.response = some (.ok res) →
      ∀ q ∈ s.incoming, ¬(q.work.id = res.work.id ∧ q.position_id = res.position_id))
    (h : s.respond pull now = some r) : QueueInv r.state := by
  cases hi : ingestResponse s pull.response now with
  | none =>
      unfold QueueState.respond at h
      rw [hi] at h
      cases h
  | some sc =>
      obtain ⟨s2, calls⟩ := sc
      have h2 : QueueInv s2 := ingestResponse_inv hinv hfresh hi
      cases hinc : s2.incoming with
      | nil =>
          rw [respond_need_more hi hinc] at h
          injection h with h
          rw [← h]
          exact h2
      | cons q rest =>
          by_cases hcl : pull.callback.closed
          · rw [respond_closed hi hinc hcl] at h
            injection h with h
            rw [← h]
            exact h2
          · rw [respond_serve hi hinc (Bool.eq_false_iff.mpr hcl)] at h
            injection h with h
            rw [← h]
            constructor
            · exact h2.1
            · intro q1 hq1
              exact h2.2 q1 (by rw [hinc]; exact List.mem_cons_of_mem _ hq1)

theorem add_incoming_batch_inv {s : QueueState} {batch : IncomingBatch} {now : Nat}
    {r1 : QueueState} {r2 : List ApiCall} (hinv : QueueInv s)
    (hcons : ∀ i p, batch.positions.get? i = some (Skip.present p) →
      p.work.id = batch.work.id ∧ p.position_id = i)
    (h : s.add_incoming_batch batch now = some (r1, r2)) : QueueInv r1 := by
  obtain ⟨hwk, hin⟩ := hinv
  cases hdup : lookupBatch s.pending batch.work.id with
  | some pb =>
      rw [add_incoming_batch_dup now hdup] at h
      injection h with h
      injection h with h1 _
      exact h1 ▸ ⟨hwk, hin⟩
  | none =>
      rw [add_incoming_batch_fresh now hdup] at h
      refine maybe_finished_inv ⟨?_, ?_⟩ h
      · intro kp hkp
        rcases mem_insertBatch hkp with hkp1 | hkp1
        · rw [hkp1]
        · exact hwk kp hkp1
      · intro q hq
        simp only [List.mem_append, List.mem_reverse] at hq
        rw [batchOkB_iff]
        show ∃ pb1, lookupBatch (insertBatch s.pending batch.work.id
            { work := batch.work, positions := batch.positions.map slotOf,
              url := batch.url, started_at := now }) q.work.id = some pb1 ∧
          pb1.positions.get? q.position_id = some none
        rcases hq with hq | hq
        · have hb := hin q hq
          rw [batchOkB_iff] at hb
          obtain ⟨pb, hpb, hslot⟩ := hb
          have hqb : batch.work.id ≠ q.work.id := by
            intro hh
            rw [← hh, hdup] at hpb
            cases hpb
          rw [lookupBatch_insertBatch, if_neg hqb]
          exact ⟨pb, hpb, hslot⟩
        · rw [mem_presentPositions] at hq
          obtain ⟨i, hget⟩ := List.mem_iff_get?.mp hq
          obtain ⟨hqwk, hqpos⟩ := hcons i q hget
          refine ⟨{ work := batch.work, positions := batch.positions.map slotOf,
                    url := batch.url, started_at := now }, ?_, ?_⟩
          · rw [lookupBatch_insertBatch, if_pos hqwk.symm]
          · show (batch.positions.map slotOf).get? q.position_id = some none
            rw [hqpos, List.get?_map, hget]
            rfl

/-! Support lemmas for the skip loop of from_acquired and for progress
reports. -/

theorem foldlSet_length (skips : List Nat) (ps : List (Skip Position)) :
    (skips.foldl (fun a j => a.set j Skip.skip) ps).length = ps.length := by
  induction skips generalizing ps with
  | nil => rfl
  | cons j rest ih =>
      simp only [List.foldl_cons, ih, List.length_set]

theorem foldlSet_get?_not_mem (skips : List Nat) (ps : List (Skip Position)) (i : Nat)
    (h : i ∉ skips) :
    (skips.foldl (fun a j => a.set j Skip.skip) ps).get? i = ps.get? i := by
  induction skips generalizing ps with
  | nil => rfl
  | cons j rest ih =>
      simp only [List.mem_cons, not_or] at h
      simp only [List.foldl_cons, ih _ h.2]
      exact List.get?_set_ne _ _ fun hh => h.1 hh.symm

theorem foldlSet_get?_mem (skips : List Nat) (ps : List (Skip Position)) (i : Nat)
    (h : i ∈ skips) (hlen : i < ps.length) :
    (skips.foldl (fun a j => a.set j Skip.skip) ps).get? i = some Skip.skip := by
  induction skips generalizing ps with
  | nil => cases h
  | cons j rest ih =>
      simp only [List.foldl_cons]
      by_cases hm : i ∈ rest
      · exact ih (ps.set j Skip.skip) hm (by rw [List.length_set]; exact hlen)
      · have hij : i = j := by
          rcases List.mem_cons.mp h with h1 | h1
          · exact h1
          · exact absurd h1 hm
        subst hij
        rw [foldlSet_get?_not_mem rest _ i hm]
        exact List.get?_set_eq_of_lt _ hlen

theorem analysisTail_length (eu : Url) (gid : Option String) (work : Work) (variant : Nat)
    (fen : String) (nodes : Nat) (movesAcc : List String) (idx : Nat) (moves : List String) :
    (analysisTail eu gid work variant fen nodes movesAcc idx moves).length = moves.length := by
  induction moves generalizing movesAcc idx with
  | nil => rfl
  | cons m rest ih => simp only [analysisTail, List.length_cons, ih]

theorem analysisPositions_length (endpoint : Endpoint) (body : AcquireResponseBody) :
    (analysisPositions endpoint body).length = body.moves.length + 1 := by
  simp [analysisPositions, analysisTail_length]

theorem progressSlots_head (slot : Option (Skip PositionResponse))
    (rest : List (Option (Skip PositionResponse))) :
    progressSlots 0 (slot :: rest) = none :: progressSlots 1 rest := by
  cases slot with
  | none => rfl
  | some sk => cases sk <;> rfl

/-! Claim C7: the backlog wait computation refines the specified one. -/

/-- Modelled from the spec (section 4.5.1 and claim C7): with user_backlog
the max of the configured user backlog and min_user_backlog, and
system_backlog the configured system backlog, when at least one of them
is at least one second and a status is available the result is the pair
of min(user_wait, system_wait) and the slow flag user_wait at least
system_wait plus one second, where each wait is the saturating
difference of the backlog and the oldest age; when neither backlog
reaches one second, or the status is unavailable, the result is zero
wait with slow set to whether min_user_backlog is at least one second. -/
def backlogWaitTimeSpec (optUser optSystem : Option Nat) (mub : Nat)
    (status : Option QueueStatus) : Nat × AcquireQuery :=
  let sec : Nat := 1000
  let user_backlog := max (optUser.getD 0) mub
  let system_backlog := optSystem.getD 0
  match status with
  | some st =>
      if sec ≤ user_backlog ∨ sec ≤ system_backlog then
        let user_wait := user_backlog - st.userOldest
        let system_wait := system_backlog - st.systemOldest
        (min user_wait system_wait, { slow := decide (system_wait + sec ≤ user_wait) })
      else (0, { slow := decide (sec ≤ mub) })
  | none => (0, { slow := decide (sec ≤ mub) })

/-- C7: QueueActor::backlog_wait_time computes exactly the function the
spec describes: when at least one of user_backlog (the max of the
configured value and min_user_backlog) and system_backlog reaches one
second and the status is available it returns min of the two saturating
waits together with slow = user_wait at least system_wait plus one
second; otherwise it returns zero wait and slow = whether
min_user_backlog is at least one second. -/
theorem C7_backlog_wait_time_refines (optUser optSystem : Option Nat) (mub : Nat)
    (status : Option QueueStatus) :
    backlog_wait_time optUser optSystem mub status =
      backlogWaitTimeSpec optUser optSystem mub status := by
  unfold backlog_wait_time backlogWaitTimeSpec
  cases status with
  | none =>
      by_cases h : 1000 ≤ max (optUser.getD 0) mub ∨ 1000 ≤ optSystem.getD 0 <;> simp [h]
  | some st =>
      by_cases h : 1000 ≤ max (optUser.getD 0) mub ∨ 1000 ≤ optSystem.getD 0 <;> simp [h]

/-! Claim C6: index 0 of every progress report is None. -/

/-- C6: in every progress report of a pending batch with at least one
slot, the entry at index 0 is None, even when a response for position 0
has been received (the present guard requires a positive index). -/
theorem C6_progress_head_none (p : PendingBatch) (h : 0 < p.positions.length) :
    p.progress_report.get? 0 = some none := by
  unfold PendingBatch.progress_report
  cases hp : p.positions with
  | nil => rw [hp] at h; cases h
  | cons slot rest => rw [progressSlots_head]; rfl

/-- Witness for C6 at a batch whose position 0 already has a present
response. -/
def C6exRes : PositionResponse :=
  { work := .analysis 11, position_id := 0, pv := ["e2e4"], depth := 20, score := 15,
    time_millis := 1200, nodes := 400, nps := some 333 }

def C6exBatch : PendingBatch :=
  { work := .analysis 11, positions := [some (.present C6exRes), none], url := none,
    started_at := 0 }

theorem C6_progress_head_none_witness :
    0 < C6exBatch.positions.length ∧ C6exBatch.progress_report.get? 0 = some none :=
  ⟨by decide, C6_progress_head_none C6exBatch (by decide)⟩

/-! Claim C9: the serve phase of respond. -/

/-- C9: serving a pull in respond, with s2 the state after the response
was ingested: if incoming is non-empty and the callback is open, the head
is popped and sent and the result is Ok; if the callback receiver is
closed, the popped head is pushed back to the front so incoming is
unchanged and the result is Ok with nothing sent; if incoming is empty,
the result is Err carrying a pull with the same callback. -/
theorem C9_serve_pull (s : QueueState) (pull : Pull) (now : Nat) (s2 : QueueState)
    (calls : List ApiCall) (hi : ingestResponse s pull.response now = some (s2, calls)) :
    (s2.incoming = [] → s.respond pull now =
        some ⟨s2, calls, none, .err { response := none, callback := pull.callback }⟩) ∧
    (∀ q rest, s2.incoming = q :: rest → pull.callback.closed = false →
        s.respond pull now = some ⟨{ s2 with incoming := rest }, calls, some q, .ok⟩) ∧
    (∀ q rest, s2.incoming = q :: rest → pull.callback.closed = true →
        s.respond pull now = some ⟨s2, calls, none, .ok⟩) :=
  ⟨fun hinc => respond_need_more hi hinc,
   fun _ _ hinc hcl => respond_serve hi hinc hcl,
   fun _ _ hinc hcl => respond_closed hi hinc hcl⟩

/-- Witness example for C9: one queued position, open callback. -/
def C9exPos : Position :=
  { work := .analysis 21, position_id := 0, url := none, variant := 0, fen := "f",
    moves := [], nodes := 4000000 }

def C9exState : QueueState :=
  { shutdownSoon := false, cores := 1, incoming := [C9exPos],
    pending := [(21, { work := .analysis 21, positions := [none], url := none,
                       started_at := 0 })] }

def C9exPull : Pull := { response := none, callback := { closed := false, tag := 3 } }

theorem C9_serve_pull_witness :
    QueueState.respond C9exState C9exPull 0 =
      some ⟨{ C9exState with incoming := [] }, [], some C9exPos, .ok⟩ :=
  (C9_serve_pull C9exState C9exPull 0 C9exState [] rfl).2.1 C9exPos [] rfl rfl

/-! Claim C10: unknown batch ids are silently dropped. -/

/-- C10: an Ok response whose batch id is not a key of pending leaves the
state untouched and issues no server call: the ingest phase returns the
state unchanged with no calls, so respond behaves exactly as it would on
a pull with no response (only serving the pull); likewise maybe_finished
on an unknown batch id returns the state unchanged with no calls. -/
theorem C10_unknown_batch_frame (s : QueueState) (res : PositionResponse) (cb : Callback)
    (b : BatchId) (now : Nat)
    (h1 : lookupBatch s.pending res.work.id = none)
    (h2 : lookupBatch s.pending b = none) :
    ingestResponse s (some (.ok res)) now = some (s, []) ∧
    s.respond { response := some (.ok res), callback := cb } now =
      s.respond { response := none, callback := cb } now ∧
    s.maybe_finished b now = some (s, []) := by
  have h3 : ingestResponse s (some (.ok res)) now = some (s, []) := by
    rw [ingest_ok]
    have hupd :
        updateBatch s.pending res.work.id
            (fun pb =>
              { pb with positions := pb.positions.set res.position_id (some (.present res)) }) =
          s.pending :=
      updateBatch_eq_of_lookup_none _ _ _ h1
    rw [hupd]
    exact maybe_finished_not_pending now h1
  refine ⟨h3, ?_, maybe_finished_not_pending now h2⟩
  simp only [QueueState.respond, h3, ingest_none]

/-- Witness example for C10 at a concrete state whose pending table does
not contain batch id 8. -/
def C10exState : QueueState :=
  { shutdownSoon := false, cores := 1, incoming := [],
    pending := [(2, { work := .analysis 2, positions := [none], url := none,
                      started_at := 0 })] }

def C10exRes : PositionResponse :=
  { work := .analysis 8, position_id := 0, pv := [], depth := 1, score := 0,
    time_millis := 1, nodes := 1, nps := none }

def C10exCb : Callback := { closed := false, tag := 0 }

theorem C10_unknown_batch_frame_witness :
    ingestResponse C10exState (some (.ok C10exRes)) 0 = some (C10exState, []) ∧
    QueueState.respond C10exState { response := some (.ok C10exRes), callback := C10exCb } 0 =
      QueueState.respond C10exState { response := none, callback := C10exCb } 0 ∧
    QueueState.maybe_finished C10exState 8 0 = some (C10exState, []) :=
  C10_unknown_batch_frame C10exState C10exRes C10exCb 8 0 (by decide) (by decide)

/-! Claim C8: completed batches are submitted exactly once, with a full
vector of matching parts. -/

/-- C8: when a pending batch is complete, maybe_finished removes it from
pending and issues exactly one submit_analysis call, whose vector has the
length of the original position vector, with every entry Some, Skipped
with skipped = true at pre-skipped slots and Complete with pv, depth,
score, time in milliseconds, nodes and nps at present slots. -/
theorem C8_completion_submission (s : QueueState) (b : BatchId) (now : Nat)
    (p : PendingBatch) (c : CompletedBatch)
    (hl : lookupBatch s.pending b = some p)
    (hc : p.try_into_completed now = .ok c) :
    s.maybe_finished b now =
      some ({ s with pending := removeBatch s.pending b },
            [ApiCall.submitAnalysis c.work.id c.into_analysis]) ∧
    c.work.id = p.work.id ∧
    c.into_analysis.length = p.positions.length ∧
    (∀ part ∈ c.into_analysis, part.isSome = true) ∧
    (∀ i, p.positions.get? i = some (some Skip.skip) →
        c.into_analysis.get? i = some (some (AnalysisPart.skipped true))) ∧
    (∀ i res, p.positions.get? i = some (some (Skip.present res)) →
        c.into_analysis.get? i = some (some (AnalysisPart.complete res.pv res.depth res.score
          (res.time_millis % 2 ^ 64) res.nodes res.nps))) := by
  obtain ⟨hall, hceq⟩ := try_into_completed_ok hc
  have hpos : p.positions = c.positions.map some := allSome_eq_some hall
  refine ⟨maybe_finished_completed hl hc, ?_, ?_, ?_, ?_, ?_⟩
  · rw [hceq]
  · rw [hpos]
    simp [CompletedBatch.into_analysis]
  · intro part hpart
    unfold CompletedBatch.into_analysis at hpart
    obtain ⟨x, _, hx⟩ := List.mem_map.mp hpart
    rw [← hx]
    rfl
  · intro i hget
    rw [hpos, List.get?_map] at hget
    cases hg : c.positions.get? i with
    | none => rw [hg] at hget; cases hget
    | some x =>
        rw [hg] at hget
        injection hget with hget
        injection hget with hget
        subst hget
        unfold CompletedBatch.into_analysis
        rw [List.get?_map, hg]
        rfl
  · intro i res hget
    rw [hpos, List.get?_map] at hget
    cases hg : c.positions.get? i with
    | none => rw [hg] at hget; cases hget
    | some x =>
        rw [hg] at hget
        injection hget with hget
        injection hget with hget
        subst hget
        unfold CompletedBatch.into_analysis
        rw [List.get?_map, hg]
        rfl

/-- Witness example for C8: a two-slot batch, one pre-skipped slot and one
present response. -/
def C8exRes : PositionResponse :=
  { work := .analysis 4, position_id := 1, pv := ["d2d4"], depth := 22, score := -3,
    time_millis := 950, nodes := 777, nps := some 818 }

def C8exBatch : PendingBatch :=
  { work := .analysis 4, positions := [some Skip.skip, some (.present C8exRes)],
    url := none, started_at := 2 }

def C8exState : QueueState :=
  { shutdownSoon := false, cores := 1, incoming := [], pending := [(4, C8exBatch)] }

def C8exCompleted : CompletedBatch :=
  { work := .analysis 4, positions := [Skip.skip, .present C8exRes], url := none,
    started_at := 2, completed_at := 9 }

theorem C8_completion_submission_witness :
    QueueState.maybe_finished C8exState 4 9 =
      some ({ C8exState with pending := removeBatch C8exState.pending 4 },
            [ApiCall.submitAnalysis C8exCompleted.work.id C8exCompleted.into_analysis]) ∧
    C8exCompleted.into_analysis.length = C8exBatch.positions.length :=
  have h := C8_completion_submission C8exState 4 9 C8exBatch C8exCompleted rfl rfl
  ⟨h.1, h.2.2.1⟩

/-! Claim C5: panic freedom of the operations, and its failure at
cores = 0. -/

/-- C5 counterexample: with cores = 0, as channel permits, adding a batch
with one present position reaches the remainder by cores * 2 = 0 in
maybe_finished, the modelled panic: the operation returns none. -/
def C5exPos : Position :=
  { work := .analysis 3, position_id := 0, url := none, variant := 0, fen := "f",
    moves := [], nodes := 4000000 }

def C5exIncoming : IncomingBatch :=
  { work := .analysis 3, positions := [Skip.present C5exPos], url := none }

theorem C5_cores_zero_cex :
    (QueueState.new 0).add_incoming_batch C5exIncoming 0 = none := by decide

/-- C5 (amended): provided cores is at least 1, maybe_finished, respond
and add_incoming_batch never panic: they always return some. -/
theorem C5_no_panic (s : QueueState) (hc : 1 ≤ s.cores) (batch : IncomingBatch)
    (pull : Pull) (b : BatchId) (now : Nat) :
    (s.maybe_finished b now).isSome = true ∧
    (s.respond pull now).isSome = true ∧
    (s.add_incoming_batch batch now).isSome = true :=
  have hnz : s.cores ≠ 0 := Nat.pos_iff_ne_zero.mp hc
  ⟨maybe_finished_isSome b now hnz, respond_isSome pull now hnz,
   add_incoming_batch_isSome batch now hnz⟩

def C5exPull : Pull := { response := none, callback := { closed := false, tag := 0 } }

theorem C5_no_panic_witness :
    ((QueueState.new 1).maybe_finished 3 0).isSome = true ∧
    ((QueueState.new 1).respond C5exPull 0).isSome = true ∧
    ((QueueState.new 1).add_incoming_batch C5exIncoming 0).isSome = true :=
  C5_no_panic (QueueState.new 1) (by decide) C5exIncoming C5exPull 3 0

/-! Claim C2: the progress report cadence. -/

/-- C2 counterexample: cores = 1, a pending batch with two outstanding
slots and zero filled slots; maybe_finished submits a progress report
anyway, because 0 is divisible by cores * 2. -/
def C2exBatch : PendingBatch :=
  { work := .analysis 5, positions := [none, none], url := none, started_at := 0 }

def C2exState : QueueState :=
  { shutdownSoon := false, cores := 1, incoming := [], pending := [(5, C2exBatch)] }

theorem C2_zero_filled_cex :
    (C2exBatch.positions.filter Option.isSome).length = 0 ∧
    (QueueState.maybe_finished C2exState 5 0).map (fun r => r.2) =
      some [ApiCall.submitAnalysis 5 [none, none]] := by decide

/-- C2 (amended): for an incomplete pending batch (and cores at least 1 so
that the remainder does not panic), maybe_finished submits the progress
report exactly when the count of Some entries of the report itself (the
present, non pre-skipped slots at positive indices) is divisible by
cores * 2, the zero count included; in particular with zero such entries
the report is always submitted. -/
theorem C2_progress_cadence (s : QueueState) (b : BatchId) (now : Nat) (p : PendingBatch)
    (hl : lookupBatch s.pending b = some p)
    (hall : allSome p.positions = none)
    (hz : s.cores * 2 ≠ 0) :
    s.maybe_finished b now =
      some ({ s with pending := insertBatch (removeBatch s.pending b) p.work.id p },
        if (p.progress_report.filter Option.isSome).length % (s.cores * 2) = 0 then
          [ApiCall.submitAnalysis p.work.id p.progress_report]
        else []) ∧
    ((p.progress_report.filter Option.isSome).length = 0 →
      s.maybe_finished b now =
        some ({ s with pending := insertBatch (removeBatch s.pending b) p.work.id p },
          [ApiCall.submitAnalysis p.work.id p.progress_report])) := by
  have hcmp : p.try_into_completed now = .error p := by
    simp [PendingBatch.try_into_completed, hall]
  refine ⟨maybe_finished_incomplete hl hcmp hz, fun h0 => ?_⟩
  rw [maybe_finished_incomplete hl hcmp hz, h0]
  simp

theorem C2_progress_cadence_witness :
    QueueState.maybe_finished C2exState 5 0 =
      some ({ C2exState with
                pending := insertBatch (removeBatch C2exState.pending 5)
                  C2exBatch.work.id C2exBatch },
            [ApiCall.submitAnalysis C2exBatch.work.id C2exBatch.progress_report]) :=
  (C2_progress_cadence C2exState 5 0 C2exBatch rfl rfl (by decide)).2 (by decide)

/-! Claim C1: slot writes in respond are unconditional. -/

/-- C1 example: batch 7 has its slot 0 pre-skipped; the response for
position 0 of batch 7 overwrites it anyway. -/
def C1exRes : PositionResponse :=
  { work := .analysis 7, position_id := 0, pv := ["g1f3"], depth := 18, score := 7,
    time_millis := 640, nodes := 512, nps := some 800 }

def C1exBatch : PendingBatch :=
  { work := .analysis 7, positions := [some Skip.skip, none], url := none, started_at := 0 }

def C1exState : QueueState :=
  { shutdownSoon := false, cores := 1, incoming := [], pending := [(7, C1exBatch)] }

def C1exCb : Callback := { closed := false, tag := 0 }

def C1exPull : Pull := { response := some (.ok C1exRes), callback := C1exCb }

/-- C1 counterexample: the slot at the response position is already Some
(pre-skipped), yet after respond it holds Some (Present res) instead of
being left unchanged, contradicting the claim. -/
theorem C1_ignored_slot_cex :
    C1exBatch.positions.get? C1exRes.position_id = some (some Skip.skip) ∧
    (QueueState.respond C1exState C1exPull 0).map (fun r => lookupBatch r.state.pending 7) =
      some (some { C1exBatch with positions := [some (Skip.present C1exRes), none] }) ∧
    (QueueState.respond C1exState C1exPull 0).map (fun r => lookupBatch r.state.pending 7) ≠
      some (some C1exBatch) := by decide

/-- C1 (amended): for an Ok response whose batch id is pending, respond
overwrites the slot at res.position_id with Some (Present res)
unconditionally, whether the slot was None, a late duplicate or a
pre-skipped Some; stated for a batch that stays incomplete (slot j is
still outstanding) so the overwritten batch is re-inserted into pending
and observable in the result state. -/
theorem C1_slot_overwrite (s : QueueState) (res : PositionResponse) (cb : Callback)
    (now : Nat) (p : PendingBatch) (j : Nat) (r : RespondResult)
    (hl : lookupBatch s.pending res.work.id = some p)
    (hwk : p.work.id = res.work.id)
    (hj : p.positions.get? j = some none)
    (hne : j ≠ res.position_id)
    (hr : s.respond { response := some (.ok res), callback := cb } now = some r) :
    lookupBatch r.state.pending res.work.id =
      some { p with positions := p.positions.set res.position_id (some (.present res)) } := by
  set p1 : PendingBatch :=
    { p with positions := p.positions.set res.position_id (some (.present res)) } with hp1
  set pend1 : Pending :=
    updateBatch s.pending res.work.id (fun pb =>
      { pb with positions := pb.positions.set res.position_id (some (.present res)) })
    with hpend1
  have hlu : lookupBatch pend1 res.work.id = some p1 := by
    rw [hpend1, lookupBatch_updateBatch, if_pos rfl, hl]
    rfl
  have hj1 : p1.positions.get? j = some none := by
    rw [hp1]
    show (p.positions.set res.position_id (some (.present res))).get? j = some none
    rw [List.get?_set_ne _ _ (Ne.symm hne)]
    exact hj
  have hall1 : allSome p1.positions = none := allSome_eq_none_of_get? hj1
  have hcmp : p1.try_into_completed now = .error p1 := by
    simp [PendingBatch.try_into_completed, hall1]
  have hz : s.cores * 2 ≠ 0 := by
    intro hzz
    have hnone : ingestResponse s (some (.ok res)) now = none := by
      rw [ingest_ok]
      exact @maybe_finished_panic { s with pending := pend1 } res.work.id now p1 hlu hcmp hzz
    rw [show s.respond { response := some (.ok res), callback := cb } now = none from by
      simp only [QueueState.respond, hnone]] at hr
    cases hr
  have hing : ingestResponse s (some (.ok res)) now =
      some ({ s with pending := insertBatch (removeBatch pend1 res.work.id) p1.work.id p1 },
        if (p1.progress_report.filter Option.isSome).length % (s.cores * 2) = 0 then
          [ApiCall.submitAnalysis p1.work.id p1.progress_report]
        else []) := by
    rw [ingest_ok]
    exact @maybe_finished_incomplete { s with pending := pend1 } res.work.id now p1 hlu hcmp hz
  have hfin : lookupBatch (insertBatch (removeBatch pend1 res.work.id) p1.work.id p1)
      res.work.id = some p1 := by
    rw [lookupBatch_insertBatch, if_pos (show p1.work.id = res.work.id from hwk)]
  cases hinc : s.incoming with
  | nil =>
      have h9 := @respond_need_more s { response := some (.ok res), callback := cb } now
        _ _ hing hinc
      rw [h9] at hr
      injection hr with hr
      rw [← hr]
      exact hfin
  | cons q rest =>
      by_cases hcl : cb.closed = true
      · have h9 := @respond_closed s { response := some (.ok res), callback := cb } now
          _ _ q rest hing hinc hcl
        rw [h9] at hr
        injection hr with hr
        rw [← hr]
        exact hfin
      · have h9 := @respond_serve s { response := some (.ok res), callback := cb } now
          _ _ q rest hing hinc (Bool.eq_false_iff.mpr hcl)
        rw [h9] at hr
        injection hr with hr
        rw [← hr]
        exact hfin

def C1exResult : RespondResult :=
  (QueueState.respond C1exState C1exPull 0).getD ⟨C1exState, [], none, .ok⟩

theorem C1_slot_overwrite_witness :
    lookupBatch C1exResult.state.pending 7 =
      some { C1exBatch with
               positions := C1exBatch.positions.set 0 (some (.present C1exRes)) } :=
  C1_slot_overwrite C1exState C1exRes C1exCb 0 C1exBatch 1 C1exResult rfl rfl rfl
    (by decide) (by decide)

/-! Claim C4: application of skip_positions in from_acquired. -/

/-- C4 counterexample: a Move body listing index 0 in skip_positions; the
produced single position is nevertheless Present, because the skip loop
lives in the Analysis branch only. -/
def C4exEndpoint : Endpoint :=
  { url := { base := "https://lichess.org", path := "", fragment := none } }

def C4exBody : AcquireResponseBody :=
  { work := .move 9, game_id := none, position := "fen0", variant := 0, moves := [],
    nodes := none, skip_positions := [0] }

theorem C4_move_skip_cex :
    0 ∈ C4exBody.skip_positions ∧
    0 < (IncomingBatch.from_acquired C4exEndpoint C4exBody).positions.length ∧
    (IncomingBatch.from_acquired C4exEndpoint C4exBody).positions.get? 0 ≠
      some Skip.skip := by decide

/-- C4 (amended): for Move work the skip_positions list is ignored
entirely and the single produced position stays Present; for Analysis
work every in-range index of skip_positions is overwritten with Skip,
out-of-range indices are ignored (the vector keeps length moves + 1) and
every other in-range slot stays Present. -/
theorem C4_skip_application (endpoint : Endpoint) (body : AcquireResponseBody) :
    (∀ mid, body.work = Work.move mid →
        (IncomingBatch.from_acquired endpoint body).positions.map Skip.isSkipB = [false]) ∧
    (∀ aid, body.work = Work.analysis aid →
        (IncomingBatch.from_acquired endpoint body).positions.length =
          body.moves.length + 1 ∧
        (∀ i, i ∈ body.skip_positions → i < body.moves.length + 1 →
            (IncomingBatch.from_acquired endpoint body).positions.get? i =
              some Skip.skip) ∧
        (∀ i, i < body.moves.length + 1 → i ∉ body.skip_positions →
            ((IncomingBatch.from_acquired endpoint body).positions.get? i).map
              Skip.isSkipB = some false)) := by
  obtain ⟨w, gid, fen, var, mv, nds, skips⟩ := body
  constructor
  · intro mid hw
    subst hw
    simp [IncomingBatch.from_acquired, Skip.isSkipB]
  · intro aid hw
    subst hw
    set bodyA : AcquireResponseBody :=
      { work := .analysis aid, game_id := gid, position := fen, variant := var,
        moves := mv, nodes := nds, skip_positions := skips } with hbody
    have hpos : (IncomingBatch.from_acquired endpoint bodyA).positions =
        skips.foldl (fun ps i => ps.set i Skip.skip)
          ((analysisPositions endpoint bodyA).map Skip.present) := rfl
    have hlen0 : ((analysisPositions endpoint bodyA).map Skip.present).length =
        mv.length + 1 := by
      rw [List.length_map]
      exact analysisPositions_length endpoint bodyA
    refine ⟨?_, ?_, ?_⟩
    · rw [hpos, foldlSet_length, hlen0]
    · intro i hi hilen
      rw [hpos]
      apply foldlSet_get?_mem _ _ _ hi
      rw [hlen0]
      exact hilen
    · intro i hilen hni
      rw [hpos, foldlSet_get?_not_mem _ _ _ hni, List.get?_map]
      have hlt : i < (analysisPositions endpoint bodyA).length := by
        rw [analysisPositions_length]
        exact hilen
      rw [List.get?_eq_get hlt]
      rfl

/-- Witness example for C4: an Analysis body with one move (two
positions), skip indices 1 (in range) and 5 (out of range). -/
def C4exBody2 : AcquireResponseBody :=
  { work := .analysis 4, game_id := some "abcd1234", position := "fen0", variant := 0,
    moves := ["e2e4"], nodes := some 7, skip_positions := [1, 5] }

theorem C4_skip_application_witness :
    (IncomingBatch.from_acquired C4exEndpoint C4exBody2).positions.length = 2 ∧
    (IncomingBatch.from_acquired C4exEndpoint C4exBody2).positions.get? 1 =
      some Skip.skip ∧
    ((IncomingBatch.from_acquired C4exEndpoint C4exBody2).positions.get? 0).map
      Skip.isSkipB = some false :=
  have h := (C4_skip_application C4exEndpoint C4exBody2).2 4 rfl
  ⟨h.1, h.2.1 1 (by decide) (by decide), h.2.2 0 (by decide) (by decide)⟩

/-! Claim C3: the incoming-implies-pending invariant. -/

/-- C3 counterexample: a reachable state with one pending batch and its
position still queued; shutdown drains pending but leaves incoming
untouched, so afterwards the queued position has a batch id that is no
longer a key of pending. -/
def C3exPos : Position :=
  { work := .analysis 1, position_id := 0, url := none, variant := 0, fen := "f",
    moves := [], nodes := 4000000 }

def C3exBatch : PendingBatch :=
  { work := .analysis 1, positions := [none], url := none, started_at := 0 }

def C3exState : QueueState :=
  { shutdownSoon := false, cores := 1, incoming := [C3exPos], pending := [(1, C3exBatch)] }

theorem C3_shutdown_cex :
    IncomingCovered C3exState ∧ ¬ IncomingCovered (QueueState.shutdown C3exState).1 := by
  decide

/-- C3 (amended): the strengthened invariant QueueInv (which contains the
claimed property, first conjunct) is preserved by add_incoming_batch for
batches whose present positions carry the batch work and index-matching
position ids (as from_acquired produces them), by respond provided an Ok
response never names a position still sitting in incoming (true of real
worker responses, whose position was popped on dispatch), by
maybe_finished, and by shutdown_soon; shutdown however empties pending
while leaving incoming untouched, so the claimed invariant fails after
shutdown whenever incoming is non-empty. -/
theorem C3_invariant_preservation :
    (∀ s : QueueState, QueueInv s → IncomingCovered s) ∧
    (∀ (s : QueueState) (batch : IncomingBatch) (now : Nat) (r1 : QueueState)
        (r2 : List ApiCall),
        QueueInv s →
        (∀ i p, batch.positions.get? i = some (Skip.present p) →
          p.work.id = batch.work.id ∧ p.position_id = i) →
        s.add_incoming_batch batch now = some (r1, r2) → QueueInv r1) ∧
    (∀ (s : QueueState) (pull : Pull) (now : Nat) (r : RespondResult),
        QueueInv s →
        (∀ res, pull.response = some (PullResponse.ok res) →
          ∀ q ∈ s.incoming, ¬(q.work.id = res.work.id ∧
            q.position_id = res.position_id)) →
        s.respond pull now = some r → QueueInv r.state) ∧
    (∀ (s : QueueState) (b : BatchId) (now : Nat) (r1 : QueueState) (r2 : List ApiCall),
        QueueInv s → s.maybe_finished b now = some (r1, r2) → QueueInv r1) ∧
    (∀ s : QueueState, QueueInv s → QueueInv s.shutdown_soon_op) ∧
    (∀ s : QueueState, (s.shutdown).1.pending = [] ∧ (s.shutdown).1.incoming = s.incoming) :=
  ⟨fun _ h => queueInv_incomingCovered h,
   fun _ _ _ _ _ hinv hcons h => add_incoming_batch_inv hinv hcons h,
   fun _ _ _ _ hinv hfresh h => respond_inv hinv hfresh h,
   fun _ _ _ _ _ hinv h => maybe_finished_inv hinv h,
   fun _ h => ⟨h.1, h.2⟩,
   fun _ => ⟨rfl, rfl⟩⟩

/-- Witness example for C3: a respond that ingests an Ok response for
position 0 of batch 1 while position 1 of the same batch is still
queued; the invariant holds before and after. -/
def C3exRes : PositionResponse :=
  { work := .analysis 1, position_id := 0, pv := [], depth := 5, score := 1,
    time_millis := 10, nodes := 9, nps := none }

def C3exPos1 : Position :=
  { work := .analysis 1, position_id := 1, url := none, variant := 0, fen := "f",
    moves := ["a"], nodes := 4000000 }

def C3exBatch2 : PendingBatch :=
  { work := .analysis 1, positions := [none, none], url := none, started_at := 0 }

def C3exState2 : QueueState :=
  { shutdownSoon := false, cores := 1, incoming := [C3exPos1],
    pending := [(1, C3exBatch2)] }

def C3exPull : Pull :=
  { response := some (.ok C3exRes), callback := { closed := false, tag := 5 } }

def C3exResult : RespondResult :=
  (QueueState.respond C3exState2 C3exPull 0).getD ⟨C3exState2, [], none, .ok⟩

theorem C3_invariant_preservation_witness : QueueInv C3exResult.state :=
  C3_invariant_preservation.2.2.1 C3exState2 C3exPull 0 C3exResult (by decide)
    (fun res h => by
      injection h with h
      injection h with h
      subst h
      decide)
    (by decide)

end Fishnet
